import Mathlib

/-!
Verification of the task-tracker core: the `Task` entity (src/src/models/Task.js)
and the storage adapter (src/src/utils/StorageManager.js).

Modelling conventions for the shallow embedding:
* JavaScript strings are Lean `String`s; `String.prototype.trim` is modelled by
  `jsTrim` over the character list (same algorithm: strip leading and trailing
  whitespace characters).
* Timestamps (`Date` values) are modelled as `Nat` milliseconds since the epoch.
  `Date.prototype.toISOString` paired with `new Date(isoString)` is an exact
  bijection at millisecond precision, so the serialized record keeps the
  millisecond value.
* `JSON.stringify` / `JSON.parse` are modelled by an executable codec over an
  inductive `JValue` type (JSON numbers restricted to integers; the repository
  only ever stores strings, booleans, arrays and objects).
* Thrown validation errors are modelled with explicit error values
  (`ValidationError` carrying the message string); the wall clock and the
  random id generator are injected as explicit arguments.
* `localStorage` is modelled as an association list of string keys and string
  values, with `setItem` / `getItem` / `removeItem` / indexed enumeration.
-/

/-! ### JavaScript string trimming -/

/-- Whitespace recognized by `String.prototype.trim` (the common subset:
space, tab, line feed, carriage return, vertical tab, form feed,
no-break space, BOM). -/
def isJsWs (c : Char) : Bool :=
  c = ' ' || c = '\t' || c = '\n' || c = '\r' || c = '\x0b' || c = '\x0c' ||
  c = ' ' || c = '﻿'

/-- Strip leading and trailing whitespace from a character list. -/
def trimChars (l : List Char) : List Char :=
  (l.dropWhile isJsWs).rdropWhile isJsWs

/-- Model of `String.prototype.trim`. -/
def jsTrim (s : String) : String := ⟨trimChars s.data⟩

theorem dropWhile_trimChars (l : List Char) :
    (trimChars l).dropWhile isJsWs = trimChars l := by
  unfold trimChars
  have hm : (l.dropWhile isJsWs).dropWhile isJsWs = l.dropWhile isJsWs :=
    List.dropWhile_idempotent isJsWs l
  obtain ⟨s, hs⟩ := List.rdropWhile_prefix isJsWs (l.dropWhile isJsWs)
  cases ht : (l.dropWhile isJsWs).rdropWhile isJsWs with
  | nil => rfl
  | cons a t2 =>
    have hsplit : l.dropWhile isJsWs = a :: (t2 ++ s) := by
      rw [← hs, ht]; simp
    have ha : ¬ isJsWs a := by
      have h0 := List.dropWhile_eq_self_iff.mp hm
      rw [hsplit] at h0
      simpa using h0 (by simp)
    exact List.dropWhile_cons_of_neg ha

theorem trimChars_idem (l : List Char) : trimChars (trimChars l) = trimChars l := by
  have h : trimChars (trimChars l) = ((trimChars l).dropWhile isJsWs).rdropWhile isJsWs := rfl
  rw [h, dropWhile_trimChars]
  have h2 : trimChars l = (l.dropWhile isJsWs).rdropWhile isJsWs := rfl
  rw [h2]
  exact List.rdropWhile_idempotent isJsWs (l.dropWhile isJsWs)

theorem jsTrim_idem (s : String) : jsTrim (jsTrim s) = jsTrim s := by
  unfold jsTrim
  exact congrArg String.mk (trimChars_idem s.data)

/-! ### JSON values and the `JSON.stringify` / `JSON.parse` codec

`JValue` models the JSON-serializable JavaScript values handled by the
storage adapter (numbers restricted to integers). `jsonStringify` mirrors
`JSON.stringify` with default options (no added whitespace, standard string
escaping); `jsonParse` mirrors `JSON.parse` (whitespace-tolerant,
recursive-descent, rejecting malformed text by returning `none` where the
builtin throws a `SyntaxError`). -/

inductive JValue where
  | null
  | bool (b : Bool)
  | num (n : Int)
  | str (s : String)
  | arr (elems : List JValue)
  | obj (fields : List (String × JValue))
deriving Repr

/-- Lower-case hexadecimal digit, as emitted by `JSON.stringify` in
unicode escapes. -/
def hexDigit (n : Nat) : Char :=
  if n < 10 then Char.ofNat (48 + n) else Char.ofNat (87 + n)

/-- String escaping performed by `JSON.stringify` on one character. -/
def escChar (c : Char) : List Char :=
  if c = '"' then ['\\', '"']
  else if c = '\\' then ['\\', '\\']
  else if c = '\n' then ['\\', 'n']
  else if c = '\r' then ['\\', 'r']
  else if c = '\t' then ['\\', 't']
  else if c = '\x08' then ['\\', 'b']
  else if c = '\x0c' then ['\\', 'f']
  else if c.toNat < 32 then ['\\', 'u', '0', '0', hexDigit (c.toNat / 16), hexDigit (c.toNat % 16)]
  else [c]

def escString (s : List Char) : List Char :=
  s.foldr (fun c acc => escChar c ++ acc) []

/-- Decimal digits of a natural number, most significant first.
Fuel-based so that the definition reduces inside the kernel. -/
def natCharsF : Nat → Nat → List Char
  | 0, _ => []
  | fuel + 1, n =>
    if n < 10 then [Char.ofNat (48 + n)]
    else natCharsF fuel (n / 10) ++ [Char.ofNat (48 + n % 10)]

def natChars (n : Nat) : List Char := natCharsF (n + 1) n

/-- Decimal rendering of an integer, as `JSON.stringify` renders integral
numbers. -/
def intChars (n : Int) : List Char :=
  if n < 0 then '-' :: natChars n.natAbs else natChars n.natAbs

mutual
/-- Characters of `JSON.stringify v` (default options: no whitespace). -/
def strVal : JValue → List Char
  | .null => "null".data
  | .bool b => if b then "true".data else "false".data
  | .num n => intChars n
  | .str s => '"' :: (escString s.data ++ ['"'])
  | .arr l => '[' :: (strElems l ++ [']'])
  | .obj l => '{' :: (strFields l ++ ['}'])

def strElems : List JValue → List Char
  | [] => []
  | [v] => strVal v
  | v :: rest => strVal v ++ ',' :: strElems rest

def strFields : List (String × JValue) → List Char
  | [] => []
  | [(k, v)] => '"' :: (escString k.data ++ '"' :: ':' :: strVal v)
  | (k, v) :: rest => ('"' :: (escString k.data ++ '"' :: ':' :: strVal v)) ++ ',' :: strFields rest
end

/-- Model of `JSON.stringify`. -/
def jsonStringify (v : JValue) : String := ⟨strVal v⟩

/-- Whitespace accepted between JSON tokens by `JSON.parse`. -/
def isWsChar (c : Char) : Bool := c = ' ' || c = '\t' || c = '\n' || c = '\r'

def skipWs (cs : List Char) : List Char := cs.dropWhile isWsChar

def parseHexDigit (c : Char) : Option Nat :=
  if 48 ≤ c.toNat ∧ c.toNat ≤ 57 then some (c.toNat - 48)
  else if 97 ≤ c.toNat ∧ c.toNat ≤ 102 then some (c.toNat - 87)
  else if 65 ≤ c.toNat ∧ c.toNat ≤ 70 then some (c.toNat - 55)
  else none

def unescChar (c : Char) : Option Char :=
  if c = '"' then some '"'
  else if c = '\\' then some '\\'
  else if c = '/' then some '/'
  else if c = 'b' then some '\x08'
  else if c = 'f' then some '\x0c'
  else if c = 'n' then some '\n'
  else if c = 'r' then some '\r'
  else if c = 't' then some '\t'
  else none

/-- Parse the body of a JSON string literal after the opening quote, up to
and including the closing quote; returns the decoded characters and the
remaining input. Unescaped control characters are rejected, as in
`JSON.parse`. The fuel argument (first) makes the recursion structural;
each step consumes at least one character, so `input length + 1` fuel
always suffices. -/
def parseStrBodyF : Nat → List Char → Option (List Char × List Char)
  | 0, _ => none
  | fuel + 1, cs =>
    match cs with
    | [] => none
    | c :: cs0 =>
      if c = '"' then some ([], cs0)
      else if c = '\\' then
        match cs0 with
        | [] => none
        | e :: cs1 =>
          if e = 'u' then
            match cs1 with
            | h1 :: h2 :: h3 :: h4 :: cs2 =>
              match parseHexDigit h1, parseHexDigit h2, parseHexDigit h3, parseHexDigit h4 with
              | some a, some b, some c3, some d =>
                (parseStrBodyF fuel cs2).map fun p =>
                  (Char.ofNat (((a * 16 + b) * 16 + c3) * 16 + d) :: p.1, p.2)
              | _, _, _, _ => none
            | _ => none
          else
            match unescChar e with
            | some u => (parseStrBodyF fuel cs1).map fun p => (u :: p.1, p.2)
            | none => none
      else if c.toNat < 32 then none
      else (parseStrBodyF fuel cs0).map fun p => (c :: p.1, p.2)

def parseStrBody (cs : List Char) : Option (List Char × List Char) :=
  parseStrBodyF (cs.length + 1) cs

/-- Expect an exact literal run of characters (for `null`, `true`, `false`). -/
def expectChars : List Char → List Char → Option (List Char)
  | [], cs => some cs
  | _ :: _, [] => none
  | e :: es, c :: cs => if c = e then expectChars es cs else none

def digitVal (c : Char) : Nat := c.toNat - 48

def natVal (ds : List Char) : Nat := ds.foldl (fun a c => a * 10 + digitVal c) 0

def parseNat (cs : List Char) : Option (Nat × List Char) :=
  let ds := cs.takeWhile Char.isDigit
  if ds.isEmpty then none else some (natVal ds, cs.dropWhile Char.isDigit)

/-- Parse an integral JSON numeral (sign and digits). -/
def parseNum (cs : List Char) : Option (JValue × List Char) :=
  if cs.head? = some '-' then (parseNat cs.tail).map fun p => (.num (-(p.1 : Int)), p.2)
  else (parseNat cs).map fun p => (.num (p.1 : Int), p.2)

mutual
/-- Recursive-descent JSON value parser. The fuel argument bounds the
recursion depth; `jsonParse` supplies enough fuel for any input it is
called on. -/
def parseVal : Nat → List Char → Option (JValue × List Char)
  | 0, _ => none
  | fuel + 1, cs =>
    match skipWs cs with
    | [] => none
    | c :: rest =>
      if c = 'n' then (expectChars ['u', 'l', 'l'] rest).map fun r => (.null, r)
      else if c = 't' then (expectChars ['r', 'u', 'e'] rest).map fun r => (.bool true, r)
      else if c = 'f' then (expectChars ['a', 'l', 's', 'e'] rest).map fun r => (.bool false, r)
      else if c = '"' then (parseStrBody rest).map fun p => (.str ⟨p.1⟩, p.2)
      else if c = '[' then
        if (skipWs rest).head? = some ']' then some (.arr [], (skipWs rest).tail)
        else (parseElems fuel rest).map fun p => (.arr p.1, p.2)
      else if c = '{' then
        if (skipWs rest).head? = some '}' then some (.obj [], (skipWs rest).tail)
        else (parseFields fuel rest).map fun p => (.obj p.1, p.2)
      else if c = '-' ∨ c.isDigit then parseNum (c :: rest)
      else none

def parseElems : Nat → List Char → Option (List JValue × List Char)
  | 0, _ => none
  | fuel + 1, cs =>
    match parseVal fuel cs with
    | none => none
    | some (v, r) =>
      match skipWs r with
      | [] => none
      | c :: r2 =>
        if c = ',' then (parseElems fuel r2).map fun p => (v :: p.1, p.2)
        else if c = ']' then some ([v], r2)
        else none

def parseFields : Nat → List Char → Option (List (String × JValue) × List Char)
  | 0, _ => none
  | fuel + 1, cs =>
    match skipWs cs with
    | [] => none
    | c :: cs1 =>
      if c = '"' then
        match parseStrBody cs1 with
        | none => none
        | some (k, cs2) =>
          match skipWs cs2 with
          | [] => none
          | c2 :: cs3 =>
            if c2 = ':' then
              match parseVal fuel cs3 with
              | none => none
              | some (v, cs4) =>
                match skipWs cs4 with
                | [] => none
                | c3 :: cs5 =>
                  if c3 = ',' then (parseFields fuel cs5).map fun p => ((⟨k⟩, v) :: p.1, p.2)
                  else if c3 = '}' then some ([(⟨k⟩, v)], cs5)
                  else none
            else none
      else none
end

/-- Model of `JSON.parse`: parse a complete value, allowing surrounding
whitespace; any leftover input is a syntax error (`none`). -/
def jsonParse (s : String) : Option JValue :=
  match parseVal (s.length + 1) s.data with
  | some (v, rest) => if (skipWs rest).isEmpty then some v else none
  | none => none

/-! ### Round trip of the numeric rendering -/

/-- The continuation after a parsed token never begins with a digit (it is
empty or starts with a structural character), so the maximal-munch numeral
parser stops exactly at the token boundary. -/
def noDigitHead (cs : List Char) : Prop := ∀ c, cs.head? = some c → c.isDigit = false

theorem isDigit_ne {c : Char} (d : Char) (hc : c.isDigit = true) (hd : d.isDigit = false) :
    c ≠ d := fun h => by rw [h, hd] at hc; exact Bool.false_ne_true hc

theorem digitChar_isDigit {d : Nat} (h : d < 10) : (Char.ofNat (48 + d)).isDigit = true := by
  interval_cases d <;> decide

theorem digitVal_digitChar {d : Nat} (h : d < 10) : digitVal (Char.ofNat (48 + d)) = d := by
  interval_cases d <;> decide

theorem natCharsF_ne_nil {fuel n : Nat} (h : n < fuel) : natCharsF fuel n ≠ [] := by
  cases fuel with
  | zero => omega
  | succ f =>
    unfold natCharsF
    by_cases h10 : n < 10 <;> simp [h10]

theorem natCharsF_digits {fuel n : Nat} :
    ∀ c ∈ natCharsF fuel n, c.isDigit = true := by
  induction fuel generalizing n with
  | zero => intro c hc; simp [natCharsF] at hc
  | succ f ih =>
    intro c hc
    unfold natCharsF at hc
    by_cases h10 : n < 10
    · simp [h10] at hc
      subst hc
      exact digitChar_isDigit h10
    · simp [h10] at hc
      rcases hc with hc | hc
      · exact ih _ hc
      · subst hc
        exact digitChar_isDigit (Nat.mod_lt _ (by omega))

theorem natVal_append_last (xs : List Char) (c : Char) :
    natVal (xs ++ [c]) = 10 * natVal xs + digitVal c := by
  unfold natVal
  rw [List.foldl_append]
  simp [Nat.mul_comm]

theorem natVal_natCharsF {fuel n : Nat} (h : n < fuel) :
    natVal (natCharsF fuel n) = n := by
  induction fuel generalizing n with
  | zero => omega
  | succ f ih =>
    unfold natCharsF
    by_cases h10 : n < 10
    · simp only [h10, if_true]
      have : natVal [Char.ofNat (48 + n)] = digitVal (Char.ofNat (48 + n)) := by
        simp [natVal]
      rw [this, digitVal_digitChar h10]
    · simp only [h10, if_false]
      rw [natVal_append_last, ih (by omega), digitVal_digitChar (Nat.mod_lt _ (by omega))]
      omega

theorem parseNat_natCharsF {fuel n : Nat} (h : n < fuel) (rest : List Char)
    (hrest : noDigitHead rest) :
    parseNat (natCharsF fuel n ++ rest) = some (n, rest) := by
  have hdig : ∀ c ∈ natCharsF fuel n, c.isDigit = true := natCharsF_digits
  have htake : (natCharsF fuel n ++ rest).takeWhile Char.isDigit = natCharsF fuel n := by
    rw [List.takeWhile_append_of_pos hdig]
    cases rest with
    | nil => simp
    | cons r t =>
      rw [List.takeWhile_cons_of_neg (by simp [hrest r rfl])]
      simp
  have hdrop : (natCharsF fuel n ++ rest).dropWhile Char.isDigit = rest := by
    rw [List.dropWhile_append_of_pos hdig]
    cases rest with
    | nil => rfl
    | cons r t => exact List.dropWhile_cons_of_neg (by simp [hrest r rfl])
  unfold parseNat
  simp only [htake, hdrop]
  rw [if_neg (by simp [List.isEmpty_iff, natCharsF_ne_nil h])]
  rw [natVal_natCharsF h]

theorem parseNat_natChars (n : Nat) (rest : List Char) (hrest : noDigitHead rest) :
    parseNat (natChars n ++ rest) = some (n, rest) := by
  unfold natChars
  exact parseNat_natCharsF (Nat.lt_succ_self n) rest hrest

theorem parseNum_intChars (n : Int) (rest : List Char) (hrest : noDigitHead rest) :
    parseNum (intChars n ++ rest) = some (.num n, rest) := by
  by_cases hneg : n < 0
  · unfold intChars
    rw [if_pos hneg]
    unfold parseNum
    simp only [List.cons_append, List.head?_cons, List.tail_cons, if_pos rfl, if_true]
    rw [parseNat_natChars _ rest hrest]
    simp only [Option.map_some']
    have : -(n.natAbs : Int) = n := by omega
    rw [this]
  · unfold intChars
    rw [if_neg hneg]
    obtain ⟨c, t, hct⟩ : ∃ c t, natChars n.natAbs = c :: t := by
      cases hnc : natChars n.natAbs with
      | nil => exact absurd hnc (natCharsF_ne_nil (Nat.lt_succ_self _))
      | cons c t => exact ⟨c, t, rfl⟩
    have hcdig : c.isDigit = true := natCharsF_digits c (by rw [show natCharsF (n.natAbs + 1) n.natAbs = natChars n.natAbs from rfl, hct]; simp)
    unfold parseNum
    rw [hct]
    simp only [List.cons_append, List.head?_cons]
    rw [if_neg (by simp [isDigit_ne '-' hcdig (by decide)])]
    rw [← List.cons_append, ← hct, parseNat_natChars _ rest hrest]
    simp only [Option.map_some']
    have : (n.natAbs : Int) = n := by omega
    rw [this]

/-! ### Round trip of the string escaping -/

theorem parseHexDigit_hexDigit {n : Nat} (h : n < 16) :
    parseHexDigit (hexDigit n) = some n := by
  interval_cases n <;> decide

theorem parseStrBodyF_escString (s : List Char) : ∀ (fuel : Nat) (rest : List Char),
    (escString s).length < fuel →
    parseStrBodyF fuel (escString s ++ '"' :: rest) = some (s, rest) := by
  induction s with
  | nil =>
    intro fuel rest hf
    cases fuel with
    | zero => omega
    | succ f => simp [escString, parseStrBodyF]
  | cons c s ih =>
    intro fuel rest hf
    have hesc : escString (c :: s) = escChar c ++ escString s := rfl
    rw [hesc] at hf ⊢
    rw [List.append_assoc]
    cases fuel with
    | zero => simp [List.length_append] at hf
    | succ f =>
    have hlen : (escString s).length < f := by
      have h1 : 1 ≤ (escChar c).length := by
        unfold escChar
        repeat' split
        all_goals simp
      rw [List.length_append] at hf
      omega
    by_cases h1 : c = '"'
    · subst h1; simp [escChar, parseStrBodyF, unescChar, ih f rest hlen]
    · by_cases h2 : c = '\\'
      · subst h2; simp [escChar, parseStrBodyF, unescChar, ih f rest hlen]
      · by_cases h3 : c = '\n'
        · subst h3; simp [escChar, parseStrBodyF, unescChar, ih f rest hlen]
        · by_cases h4 : c = '\r'
          · subst h4; simp [escChar, parseStrBodyF, unescChar, ih f rest hlen]
          · by_cases h5 : c = '\t'
            · subst h5; simp [escChar, parseStrBodyF, unescChar, ih f rest hlen]
            · by_cases h6 : c = '\x08'
              · subst h6; simp [escChar, parseStrBodyF, unescChar, ih f rest hlen]
              · by_cases h7 : c = '\x0c'
                · subst h7; simp [escChar, parseStrBodyF, unescChar, ih f rest hlen]
                · by_cases h8 : c.toNat < 32
                  · have hesc2 : escChar c =
                        ['\\', 'u', '0', '0', hexDigit (c.toNat / 16), hexDigit (c.toNat % 16)] := by
                      simp [escChar, h1, h2, h3, h4, h5, h6, h7, h8]
                    rw [hesc2]
                    simp only [List.cons_append, List.nil_append]
                    simp only [parseStrBodyF]
                    rw [parseHexDigit_hexDigit (show c.toNat / 16 < 16 by omega),
                      parseHexDigit_hexDigit (show c.toNat % 16 < 16 by omega)]
                    simp only [show parseHexDigit '0' = some 0 from rfl]
                    simp only [ih f rest hlen, Option.map_some']
                    have harith : ((0 * 16 + 0) * 16 + c.toNat / 16) * 16 + c.toNat % 16 = c.toNat := by
                      omega
                    rw [harith, Char.ofNat_toNat]
                    simp
                  · have hesc2 : escChar c = [c] := by
                      simp [escChar, h1, h2, h3, h4, h5, h6, h7, h8]
                    rw [hesc2]
                    simp only [List.cons_append, List.nil_append]
                    simp only [parseStrBodyF]
                    simp [h1, h2, h8, ih f rest hlen]

theorem parseStrBody_escString (s rest : List Char) :
    parseStrBody (escString s ++ '"' :: rest) = some (s, rest) := by
  unfold parseStrBody
  apply parseStrBodyF_escString
  rw [List.length_append]
  omega

/-! ### Round trip of the full codec -/

theorem skipWs_cons_of_not (c : Char) (t : List Char) (h : isWsChar c = false) :
    skipWs (c :: t) = c :: t := by
  simp [skipWs, List.dropWhile_cons, h]

theorem isDigit_not_ws {c : Char} (hc : c.isDigit = true) : isWsChar c = false := by
  have w1 : c ≠ ' ' := isDigit_ne ' ' hc (by decide)
  have w2 : c ≠ '\t' := isDigit_ne '\t' hc (by decide)
  have w3 : c ≠ '\n' := isDigit_ne '\n' hc (by decide)
  have w4 : c ≠ '\r' := isDigit_ne '\r' hc (by decide)
  simp [isWsChar, w1, w2, w3, w4]

/-- Unfolding of the parser at a non-whitespace head character. -/
theorem parseVal_succ_cons (f : Nat) (c : Char) (r : List Char) (hws : isWsChar c = false) :
    parseVal (f + 1) (c :: r) =
      (if c = 'n' then (expectChars ['u', 'l', 'l'] r).map fun r2 => (JValue.null, r2)
      else if c = 't' then (expectChars ['r', 'u', 'e'] r).map fun r2 => (JValue.bool true, r2)
      else if c = 'f' then (expectChars ['a', 'l', 's', 'e'] r).map fun r2 => (JValue.bool false, r2)
      else if c = '"' then (parseStrBody r).map fun p => (JValue.str ⟨p.1⟩, p.2)
      else if c = '[' then
        if (skipWs r).head? = some ']' then some (JValue.arr [], (skipWs r).tail)
        else (parseElems f r).map fun p => (JValue.arr p.1, p.2)
      else if c = '{' then
        if (skipWs r).head? = some '}' then some (JValue.obj [], (skipWs r).tail)
        else (parseFields f r).map fun p => (JValue.obj p.1, p.2)
      else if c = '-' ∨ c.isDigit then parseNum (c :: r)
      else none) := by
  simp only [parseVal]
  rw [skipWs_cons_of_not _ _ hws]

/-- Every rendered JSON value starts with a character that is neither
whitespace nor a closing bracket. -/
theorem strVal_head (v : JValue) :
    ∃ c t, strVal v = c :: t ∧ isWsChar c = false ∧ c ≠ ']' ∧ c ≠ '}' := by
  cases v with
  | null => refine ⟨'n', _, rfl, ?_, ?_, ?_⟩ <;> decide
  | bool b =>
    cases b with
    | true => refine ⟨'t', _, rfl, ?_, ?_, ?_⟩ <;> decide
    | false => refine ⟨'f', _, rfl, ?_, ?_, ?_⟩ <;> decide
  | num n =>
    by_cases hneg : n < 0
    · refine ⟨'-', natChars n.natAbs, ?_, by decide, by decide, by decide⟩
      simp [strVal, intChars, hneg]
    · obtain ⟨c, t, hct⟩ : ∃ c t, natChars n.natAbs = c :: t := by
        cases hnc : natChars n.natAbs with
        | nil => exact absurd hnc (natCharsF_ne_nil (Nat.lt_succ_self _))
        | cons c t => exact ⟨c, t, rfl⟩
      have hcdig : c.isDigit = true :=
        natCharsF_digits c (by rw [show natCharsF (n.natAbs + 1) n.natAbs = natChars n.natAbs from rfl, hct]; simp)
      refine ⟨c, t, ?_, isDigit_not_ws hcdig, isDigit_ne ']' hcdig (by decide),
        isDigit_ne '}' hcdig (by decide)⟩
      simp [strVal, intChars, hneg, hct]
  | str s => refine ⟨'"', _, rfl, ?_, ?_, ?_⟩ <;> decide
  | arr l => refine ⟨'[', _, rfl, ?_, ?_, ?_⟩ <;> decide
  | obj l => refine ⟨'{', _, rfl, ?_, ?_, ?_⟩ <;> decide

mutual
/-- Fuel consumed by the parser on a rendered value (one unit per nesting
step), used to justify that `jsonParse` supplies enough fuel. -/
def jsize : JValue → Nat
  | .arr l => 1 + jsizeL l
  | .obj l => 1 + jsizeF l
  | _ => 1

def jsizeL : List JValue → Nat
  | [] => 0
  | v :: rest => 1 + jsize v + jsizeL rest

def jsizeF : List (String × JValue) → Nat
  | [] => 0
  | kv :: rest => 1 + jsize kv.2 + jsizeF rest
end

theorem jsize_pos (v : JValue) : 1 ≤ jsize v := by
  cases v <;> simp [jsize]

theorem noDigitHead_cons {c : Char} {t : List Char} (h : c.isDigit = false) :
    noDigitHead (c :: t) := by
  intro d hd
  rw [List.head?_cons, Option.some.injEq] at hd
  subst hd
  exact h

theorem natChars_head (m : Nat) : ∃ c t, natChars m = c :: t ∧ c.isDigit = true := by
  obtain ⟨c, t, hct⟩ : ∃ c t, natChars m = c :: t := by
    cases hnc : natChars m with
    | nil => exact absurd hnc (natCharsF_ne_nil (Nat.lt_succ_self _))
    | cons c t => exact ⟨c, t, rfl⟩
  exact ⟨c, t, hct, natCharsF_digits c
    (by rw [show natCharsF (m + 1) m = natChars m from rfl, hct]; simp)⟩

theorem parse_strVal_round (fuel : Nat) :
    (∀ v rest, jsize v ≤ fuel → noDigitHead rest →
        parseVal fuel (strVal v ++ rest) = some (v, rest))
  ∧ (∀ l rest, l ≠ [] → jsizeL l ≤ fuel →
        parseElems fuel (strElems l ++ ']' :: rest) = some (l, rest))
  ∧ (∀ l rest, l ≠ [] → jsizeF l ≤ fuel →
        parseFields fuel (strFields l ++ '}' :: rest) = some (l, rest)) := by
  induction fuel with
  | zero =>
    refine ⟨?_, ?_, ?_⟩
    · intro v rest hs _
      have := jsize_pos v
      omega
    · intro l rest hne hs
      cases l with
      | nil => exact absurd rfl hne
      | cons v vs => simp [jsizeL] at hs
    · intro l rest hne hs
      cases l with
      | nil => exact absurd rfl hne
      | cons kv fs => simp [jsizeF] at hs
  | succ f ih =>
    obtain ⟨ihV, ihE, ihF⟩ := ih
    refine ⟨?_, ?_, ?_⟩
    · -- parseVal component
      intro v rest hs hnd
      cases v with
      | null =>
        rw [show strVal .null ++ rest = 'n' :: ('u' :: 'l' :: 'l' :: rest) from rfl]
        rw [parseVal_succ_cons f _ _ (by decide)]
        rfl
      | bool b =>
        cases b with
        | false =>
          rw [show strVal (.bool false) ++ rest = 'f' :: ('a' :: 'l' :: 's' :: 'e' :: rest) from rfl]
          rw [parseVal_succ_cons f _ _ (by decide)]
          rfl
        | true =>
          rw [show strVal (.bool true) ++ rest = 't' :: ('r' :: 'u' :: 'e' :: rest) from rfl]
          rw [parseVal_succ_cons f _ _ (by decide)]
          rfl
      | num n =>
        have h := parseNum_intChars n rest hnd
        by_cases hneg : n < 0
        · have hint : intChars n = '-' :: natChars n.natAbs := by simp [intChars, hneg]
          rw [show strVal (.num n) = intChars n from rfl, hint, List.cons_append,
            parseVal_succ_cons f _ _ (by decide)]
          rw [if_neg (by decide), if_neg (by decide), if_neg (by decide), if_neg (by decide),
            if_neg (by decide), if_neg (by decide), if_pos (Or.inl rfl)]
          rw [← List.cons_append, ← hint]
          exact h
        · have hint : intChars n = natChars n.natAbs := by simp [intChars, hneg]
          obtain ⟨c, t, hct, hcdig⟩ := natChars_head n.natAbs
          rw [show strVal (.num n) = intChars n from rfl, hint, hct, List.cons_append,
            parseVal_succ_cons f _ _ (isDigit_not_ws hcdig)]
          rw [if_neg (isDigit_ne 'n' hcdig (by decide)), if_neg (isDigit_ne 't' hcdig (by decide)),
            if_neg (isDigit_ne 'f' hcdig (by decide)), if_neg (isDigit_ne '"' hcdig (by decide)),
            if_neg (isDigit_ne '[' hcdig (by decide)), if_neg (isDigit_ne '{' hcdig (by decide)),
            if_pos (Or.inr hcdig)]
          rw [← List.cons_append, ← hct, ← hint]
          exact h
      | str s =>
        have hsh : strVal (.str s) ++ rest = '"' :: (escString s.data ++ '"' :: rest) := by
          rw [show strVal (.str s) = '"' :: (escString s.data ++ ['"']) from rfl]
          simp
        rw [hsh, parseVal_succ_cons f _ _ (by decide)]
        rw [if_neg (by decide), if_neg (by decide), if_neg (by decide), if_pos rfl]
        rw [parseStrBody_escString]
        rfl
      | arr l =>
        cases l with
        | nil =>
          rw [show strVal (.arr []) ++ rest = '[' :: (']' :: rest) from rfl]
          rw [parseVal_succ_cons f _ _ (by decide)]
          rw [if_neg (by decide), if_neg (by decide), if_neg (by decide), if_neg (by decide),
            if_pos rfl]
          rw [skipWs_cons_of_not _ _ (by decide)]
          simp
        | cons v vs =>
          obtain ⟨c, t, hct, hws, hne1, _⟩ := strVal_head v
          obtain ⟨Y, hY⟩ : ∃ Y, strElems (v :: vs) = strVal v ++ Y := by
            cases vs with
            | nil => exact ⟨[], by simp [strElems]⟩
            | cons w ws => exact ⟨',' :: strElems (w :: ws), rfl⟩
          have hE : strElems (v :: vs) ++ ']' :: rest = c :: (t ++ (Y ++ ']' :: rest)) := by
            rw [hY, hct]
            simp
          have hsh : strVal (.arr (v :: vs)) ++ rest =
              '[' :: (strElems (v :: vs) ++ ']' :: rest) := by
            rw [show strVal (.arr (v :: vs)) = '[' :: (strElems (v :: vs) ++ [']']) from rfl]
            simp
          rw [hsh, parseVal_succ_cons f _ _ (by decide)]
          rw [if_neg (by decide), if_neg (by decide), if_neg (by decide), if_neg (by decide),
            if_pos rfl]
          rw [hE, skipWs_cons_of_not _ _ hws]
          rw [if_neg (by simp [hne1])]
          rw [← hE]
          have hb : jsizeL (v :: vs) ≤ f := by
            simp only [jsize] at hs
            omega
          rw [ihE (v :: vs) rest (by simp) hb]
          rfl
      | obj l =>
        cases l with
        | nil =>
          rw [show strVal (.obj []) ++ rest = '{' :: ('}' :: rest) from rfl]
          rw [parseVal_succ_cons f _ _ (by decide)]
          rw [if_neg (by decide), if_neg (by decide), if_neg (by decide), if_neg (by decide),
            if_neg (by decide), if_pos rfl]
          rw [skipWs_cons_of_not _ _ (by decide)]
          simp
        | cons kv fs =>
          obtain ⟨Z, hZ⟩ : ∃ Z, strFields (kv :: fs) = '"' :: Z := by
            obtain ⟨k, v⟩ := kv
            cases fs with
            | nil => exact ⟨escString k.data ++ '"' :: ':' :: strVal v, rfl⟩
            | cons g gs =>
              exact ⟨(escString k.data ++ '"' :: ':' :: strVal v) ++ ',' :: strFields (g :: gs),
                rfl⟩
          have hF : strFields (kv :: fs) ++ '}' :: rest = '"' :: (Z ++ '}' :: rest) := by
            rw [hZ]; simp
          have hsh : strVal (.obj (kv :: fs)) ++ rest =
              '{' :: (strFields (kv :: fs) ++ '}' :: rest) := by
            rw [show strVal (.obj (kv :: fs)) = '{' :: (strFields (kv :: fs) ++ ['}']) from rfl]
            simp
          rw [hsh, parseVal_succ_cons f _ _ (by decide)]
          rw [if_neg (by decide), if_neg (by decide), if_neg (by decide), if_neg (by decide),
            if_neg (by decide), if_pos rfl]
          rw [hF, skipWs_cons_of_not _ _ (by decide)]
          rw [if_neg (by simp)]
          rw [← hF]
          have hb : jsizeF (kv :: fs) ≤ f := by
            simp only [jsize] at hs
            omega
          rw [ihF (kv :: fs) rest (by simp) hb]
          rfl
    · -- parseElems component
      intro l rest hne hs
      cases l with
      | nil => exact absurd rfl hne
      | cons v vs =>
        have hbv : jsize v ≤ f := by
          simp only [jsizeL] at hs
          omega
        cases vs with
        | nil =>
          have h1 : parseVal f (strVal v ++ ']' :: rest) = some (v, ']' :: rest) :=
            ihV v (']' :: rest) hbv (noDigitHead_cons (by decide))
          rw [show strElems [v] ++ ']' :: rest = strVal v ++ ']' :: rest from rfl]
          simp only [parseElems, h1]
          rw [skipWs_cons_of_not _ _ (by decide)]
          rfl
        | cons w ws =>
          have hsh : strElems (v :: w :: ws) ++ ']' :: rest =
              strVal v ++ ',' :: (strElems (w :: ws) ++ ']' :: rest) := by
            rw [show strElems (v :: w :: ws) = strVal v ++ ',' :: strElems (w :: ws) from rfl]
            simp
          have h1 : parseVal f (strVal v ++ ',' :: (strElems (w :: ws) ++ ']' :: rest)) =
              some (v, ',' :: (strElems (w :: ws) ++ ']' :: rest)) :=
            ihV v _ hbv (noDigitHead_cons (by decide))
          have h2 : parseElems f (strElems (w :: ws) ++ ']' :: rest) = some (w :: ws, rest) :=
            ihE (w :: ws) rest (by simp) (by simp only [jsizeL] at hs ⊢; omega)
          rw [hsh]
          simp only [parseElems, h1]
          rw [skipWs_cons_of_not _ _ (by decide)]
          show (if (',' : Char) = ',' then
              (parseElems f (strElems (w :: ws) ++ ']' :: rest)).map fun p => (v :: p.1, p.2)
            else if (',' : Char) = ']' then some ([v], strElems (w :: ws) ++ ']' :: rest)
            else none) = some (v :: w :: ws, rest)
          rw [if_pos rfl, h2]
          rfl
    · -- parseFields component
      intro l rest hne hs
      cases l with
      | nil => exact absurd rfl hne
      | cons kv fs =>
        obtain ⟨k, v⟩ := kv
        have hbv : jsize v ≤ f := by
          simp only [jsizeF] at hs
          omega
        cases fs with
        | nil =>
          have hsh : strFields [(k, v)] ++ '}' :: rest =
              '"' :: (escString k.data ++ '"' :: (':' :: (strVal v ++ '}' :: rest))) := by
            rw [show strFields [(k, v)] = '"' :: (escString k.data ++ '"' :: ':' :: strVal v)
              from rfl]
            simp
          have h1 : parseStrBody (escString k.data ++ '"' :: (':' :: (strVal v ++ '}' :: rest))) =
              some (k.data, ':' :: (strVal v ++ '}' :: rest)) := parseStrBody_escString _ _
          have h2 : parseVal f (strVal v ++ '}' :: rest) = some (v, '}' :: rest) :=
            ihV v _ hbv (noDigitHead_cons (by decide))
          rw [hsh]
          simp only [parseFields]
          rw [skipWs_cons_of_not _ _ (by decide)]
          show (if ('"' : Char) = '"' then
              match parseStrBody (escString k.data ++ '"' :: (':' :: (strVal v ++ '}' :: rest))) with
              | none => none
              | some (key, cs2) =>
                match skipWs cs2 with
                | [] => none
                | c2 :: cs3 =>
                  if c2 = ':' then
                    match parseVal f cs3 with
                    | none => none
                    | some (w, cs4) =>
                      match skipWs cs4 with
                      | [] => none
                      | c3 :: cs5 =>
                        if c3 = ',' then
                          (parseFields f cs5).map fun p => ((⟨key⟩, w) :: p.1, p.2)
                        else if c3 = '}' then some ([(⟨key⟩, w)], cs5)
                        else none
                  else none
            else none) = some ([(k, v)], rest)
          rw [if_pos rfl, h1]
          show (match skipWs (':' :: (strVal v ++ '}' :: rest)) with
              | [] => none
              | c2 :: cs3 =>
                if c2 = ':' then
                  match parseVal f cs3 with
                  | none => none
                  | some (w, cs4) =>
                    match skipWs cs4 with
                    | [] => none
                    | c3 :: cs5 =>
                      if c3 = ',' then
                        (parseFields f cs5).map fun p => ((⟨k.data⟩, w) :: p.1, p.2)
                      else if c3 = '}' then some ([(⟨k.data⟩, w)], cs5)
                      else none
                else none) = some ([(k, v)], rest)
          rw [skipWs_cons_of_not _ _ (by decide)]
          show (if (':' : Char) = ':' then
              match parseVal f (strVal v ++ '}' :: rest) with
              | none => none
              | some (w, cs4) =>
                match skipWs cs4 with
                | [] => none
                | c3 :: cs5 =>
                  if c3 = ',' then
                    (parseFields f cs5).map fun p => ((⟨k.data⟩, w) :: p.1, p.2)
                  else if c3 = '}' then some ([(⟨k.data⟩, w)], cs5)
                  else none
            else none) = some ([(k, v)], rest)
          rw [if_pos rfl, h2]
          show (match skipWs ('}' :: rest) with
              | [] => none
              | c3 :: cs5 =>
                if c3 = ',' then
                  (parseFields f cs5).map fun p => ((⟨k.data⟩, v) :: p.1, p.2)
                else if c3 = '}' then some ([(⟨k.data⟩, v)], cs5)
                else none) = some ([(k, v)], rest)
          rw [skipWs_cons_of_not _ _ (by decide)]
          rfl
        | cons g gs =>
          have hsh : strFields ((k, v) :: g :: gs) ++ '}' :: rest =
              '"' :: (escString k.data ++ '"' ::
                (':' :: (strVal v ++ ',' :: (strFields (g :: gs) ++ '}' :: rest)))) := by
            rw [show strFields ((k, v) :: g :: gs) =
              ('"' :: (escString k.data ++ '"' :: ':' :: strVal v)) ++ ',' :: strFields (g :: gs)
              from rfl]
            simp
          have h1 : parseStrBody (escString k.data ++ '"' ::
              (':' :: (strVal v ++ ',' :: (strFields (g :: gs) ++ '}' :: rest)))) =
              some (k.data, ':' :: (strVal v ++ ',' :: (strFields (g :: gs) ++ '}' :: rest))) :=
            parseStrBody_escString _ _
          have h2 : parseVal f (strVal v ++ ',' :: (strFields (g :: gs) ++ '}' :: rest)) =
              some (v, ',' :: (strFields (g :: gs) ++ '}' :: rest)) :=
            ihV v _ hbv (noDigitHead_cons (by decide))
          have h3 : parseFields f (strFields (g :: gs) ++ '}' :: rest) = some (g :: gs, rest) :=
            ihF (g :: gs) rest (by simp) (by simp only [jsizeF] at hs ⊢; omega)
          rw [hsh]
          simp only [parseFields]
          rw [skipWs_cons_of_not _ _ (by decide)]
          show (if ('"' : Char) = '"' then
              match parseStrBody (escString k.data ++ '"' ::
                  (':' :: (strVal v ++ ',' :: (strFields (g :: gs) ++ '}' :: rest)))) with
              | none => none
              | some (key, cs2) =>
                match skipWs cs2 with
                | [] => none
                | c2 :: cs3 =>
                  if c2 = ':' then
                    match parseVal f cs3 with
                    | none => none
                    | some (w, cs4) =>
                      match skipWs cs4 with
                      | [] => none
                      | c3 :: cs5 =>
                        if c3 = ',' then
                          (parseFields f cs5).map fun p => ((⟨key⟩, w) :: p.1, p.2)
                        else if c3 = '}' then some ([(⟨key⟩, w)], cs5)
                        else none
                  else none
            else none) = some ((k, v) :: g :: gs, rest)
          rw [if_pos rfl, h1]
          show (match skipWs (':' :: (strVal v ++ ',' :: (strFields (g :: gs) ++ '}' :: rest))) with
              | [] => none
              | c2 :: cs3 =>
                if c2 = ':' then
                  match parseVal f cs3 with
                  | none => none
                  | some (w, cs4) =>
                    match skipWs cs4 with
                    | [] => none
                    | c3 :: cs5 =>
                      if c3 = ',' then
                        (parseFields f cs5).map fun p => ((⟨k.data⟩, w) :: p.1, p.2)
                      else if c3 = '}' then some ([(⟨k.data⟩, w)], cs5)
                      else none
                else none) = some ((k, v) :: g :: gs, rest)
          rw [skipWs_cons_of_not _ _ (by decide)]
          show (if (':' : Char) = ':' then
              match parseVal f (strVal v ++ ',' :: (strFields (g :: gs) ++ '}' :: rest)) with
              | none => none
              | some (w, cs4) =>
                match skipWs cs4 with
                | [] => none
                | c3 :: cs5 =>
                  if c3 = ',' then
                    (parseFields f cs5).map fun p => ((⟨k.data⟩, w) :: p.1, p.2)
                  else if c3 = '}' then some ([(⟨k.data⟩, w)], cs5)
                  else none
            else none) = some ((k, v) :: g :: gs, rest)
          rw [if_pos rfl, h2]
          show (match skipWs (',' :: (strFields (g :: gs) ++ '}' :: rest)) with
              | [] => none
              | c3 :: cs5 =>
                if c3 = ',' then
                  (parseFields f cs5).map fun p => ((⟨k.data⟩, v) :: p.1, p.2)
                else if c3 = '}' then some ([(⟨k.data⟩, v)], cs5)
                else none) = some ((k, v) :: g :: gs, rest)
          rw [skipWs_cons_of_not _ _ (by decide)]
          show (if (',' : Char) = ',' then
              (parseFields f (strFields (g :: gs) ++ '}' :: rest)).map
                fun p => ((⟨k.data⟩, v) :: p.1, p.2)
            else if (',' : Char) = '}' then
              some ([(⟨k.data⟩, v)], strFields (g :: gs) ++ '}' :: rest)
            else none) = some ((k, v) :: g :: gs, rest)
          rw [if_pos rfl, h3]
          rfl

theorem jsize_bound (n : Nat) :
    (∀ v, jsize v ≤ n → jsize v ≤ (strVal v).length)
  ∧ (∀ l, jsizeL l ≤ n → jsizeL l ≤ (strElems l).length + 1)
  ∧ (∀ l, jsizeF l ≤ n → jsizeF l ≤ (strFields l).length + 1) := by
  induction n with
  | zero =>
    refine ⟨?_, ?_, ?_⟩
    · intro v hs
      have := jsize_pos v
      omega
    · intro l hs
      cases l with
      | nil => simp [jsizeL]
      | cons v vs => simp [jsizeL] at hs
    · intro l hs
      cases l with
      | nil => simp [jsizeF]
      | cons kv fs => simp [jsizeF] at hs
  | succ n ih =>
    obtain ⟨ih1, ih2, ih3⟩ := ih
    refine ⟨?_, ?_, ?_⟩
    · intro v hs
      cases v with
      | null => simp [jsize, strVal]
      | bool b => cases b <;> simp [jsize, strVal]
      | num m =>
        have hne : intChars m ≠ [] := by
          unfold intChars
          by_cases hneg : m < 0
          · simp [hneg]
          · simp [hneg]
            exact natCharsF_ne_nil (Nat.lt_succ_self _)
        have : 1 ≤ (intChars m).length := by
          cases hi : intChars m with
          | nil => exact absurd hi hne
          | cons c t => simp
        simp only [jsize, strVal]
        exact this
      | str s => simp [jsize, strVal]
      | arr l =>
        have hb : jsizeL l ≤ n := by
          simp only [jsize] at hs
          omega
        have := ih2 l hb
        simp only [jsize, strVal, List.length_cons, List.length_append]
        simp
        omega
      | obj l =>
        have hb : jsizeF l ≤ n := by
          simp only [jsize] at hs
          omega
        have := ih3 l hb
        simp only [jsize, strVal, List.length_cons, List.length_append]
        simp
        omega
    · intro l hs
      cases l with
      | nil => simp [jsizeL]
      | cons v vs =>
        have hbv : jsize v ≤ n := by
          simp only [jsizeL] at hs
          omega
        have h1 := ih1 v hbv
        cases vs with
        | nil =>
          simp only [jsizeL, strElems]
          omega
        | cons w ws =>
          have hbw : jsizeL (w :: ws) ≤ n := by
            simp only [jsizeL] at hs ⊢
            omega
          have h2 := ih2 (w :: ws) hbw
          simp only [jsizeL] at h2 ⊢
          rw [show strElems (v :: w :: ws) = strVal v ++ ',' :: strElems (w :: ws) from rfl]
          simp only [List.length_append, List.length_cons]
          omega
    · intro l hs
      cases l with
      | nil => simp [jsizeF]
      | cons kv fs =>
        obtain ⟨k, v⟩ := kv
        have hbv : jsize v ≤ n := by
          simp only [jsizeF] at hs
          omega
        have h1 := ih1 v hbv
        cases fs with
        | nil =>
          simp only [jsizeF, strFields]
          simp only [List.length_cons, List.length_append]
          omega
        | cons g gs =>
          have hbg : jsizeF (g :: gs) ≤ n := by
            simp only [jsizeF] at hs ⊢
            omega
          have h2 := ih3 (g :: gs) hbg
          simp only [jsizeF] at h2 ⊢
          rw [show strFields ((k, v) :: g :: gs) =
            ('"' :: (escString k.data ++ '"' :: ':' :: strVal v)) ++ ',' :: strFields (g :: gs)
            from rfl]
          simp only [List.length_append, List.length_cons]
          omega

theorem jsize_le_strVal (v : JValue) : jsize v ≤ (strVal v).length :=
  (jsize_bound (jsize v)).1 v le_rfl

/-- Round-trip law of the JSON codec: parsing a stringified value yields the
value back. -/
theorem jsonParse_jsonStringify (v : JValue) : jsonParse (jsonStringify v) = some v := by
  unfold jsonParse jsonStringify
  have h := (parse_strVal_round ((strVal v).length + 1)).1 v []
    (by have := jsize_le_strVal v; omega) (fun c hc => by simp at hc)
  rw [List.append_nil] at h
  rw [show (String.mk (strVal v)).length = (strVal v).length from rfl]
  rw [show (String.mk (strVal v)).data = strVal v from rfl]
  rw [h]
  simp [skipWs]

/-! ### The Task entity (src/src/models/Task.js)

Validation failures (`throw new Error(...)`) are modelled as
`Except ValidationError` results carrying the thrown message. The wall
clock (`new Date()`, in epoch milliseconds) and the generated id
(`_generateId`, which mixes `Date.now()` with a random suffix) are
environmental inputs, injected as explicit arguments. A JavaScript value
stored in the loosely typed `_completed` field is modelled by `JSVal`
(`undefined` or any JSON value), since `fromJSON` copies it verbatim. -/

structure ValidationError where
  message : String
deriving Repr, DecidableEq

/-- A dynamically typed JavaScript value: `undefined` or a JSON value. -/
inductive JSVal where
  | undef
  | val (v : JValue)
deriving Repr

def validPriorities : List String := ["low", "medium", "high"]

def invalidPriorityMsg (p : String) : String :=
  "Invalid priority: " ++ p ++ ". Must be one of: " ++ String.intercalate ", " validPriorities

/-- `Task._validatePriority`: returns the priority if it is a member of the
fixed enum, otherwise throws naming the invalid value and the allowed set. -/
def validatePriority (p : String) : Except ValidationError String :=
  if validPriorities.contains p then .ok p
  else .error ⟨invalidPriorityMsg p⟩

/-- The JavaScript idiom `description ? description.trim() : ''`:
`undefined`/`null` and the empty string are falsy and normalize to `""`,
anything else is trimmed. -/
def descOf : Option String → String
  | none => ""
  | some s => if s = "" then "" else jsTrim s

namespace Models

structure Task where
  id : String
  title : String
  description : String
  priority : String
  completed : JSVal
  createdAt : Nat
  updatedAt : Nat
deriving Repr

/-- `new Task(title, description, priority = 'medium')`. The `id` argument
is the value produced by `_generateId()`; `createdAt`/`updatedAt` are the
two successive `new Date()` readings taken by the constructor. A priority
argument of `none` models an omitted/`undefined` argument, for which the
JavaScript default parameter supplies `'medium'`. -/
def Task.construct (title : String) (description : Option String) (priority : Option String)
    (id : String) (createdAt updatedAt : Nat) : Except ValidationError Task :=
  if title = "" ∨ jsTrim title = "" then .error ⟨"Task title is required"⟩
  else
    match validatePriority (priority.getD "medium") with
    | .error e => .error e
    | .ok p =>
      .ok { id := id
            title := jsTrim title
            description := descOf description
            priority := p
            completed := .val (.bool false)
            createdAt := createdAt
            updatedAt := updatedAt }

/-- `markComplete()`: sets the flag and refreshes `updatedAt` from the
clock; no error path exists, so the model is a total function. -/
def Task.markComplete (t : Task) (now : Nat) : Task :=
  { t with completed := .val (.bool true), updatedAt := now }

/-- `markIncomplete()`: clears the flag and refreshes `updatedAt`. -/
def Task.markIncomplete (t : Task) (now : Nat) : Task :=
  { t with completed := .val (.bool false), updatedAt := now }

/-- `updateTitle(newTitle)`: the result pairs the thrown error (if any)
with the object state after the call, making visible that a throw leaves
the state untouched. -/
def Task.updateTitle (t : Task) (newTitle : String) (now : Nat) :
    Option ValidationError × Task :=
  if newTitle = "" ∨ jsTrim newTitle = "" then (some ⟨"Task title cannot be empty"⟩, t)
  else (none, { t with title := jsTrim newTitle, updatedAt := now })

/-- `updateDescription(newDescription)`: never throws. -/
def Task.updateDescription (t : Task) (newDescription : Option String) (now : Nat) : Task :=
  { t with description := descOf newDescription, updatedAt := now }

/-- `updatePriority(newPriority)`: validates against the enum; a throw
leaves the state untouched. -/
def Task.updatePriority (t : Task) (newPriority : String) (now : Nat) :
    Option ValidationError × Task :=
  match validatePriority newPriority with
  | .error e => (some e, t)
  | .ok p => (none, { t with priority := p, updatedAt := now })

/-- The plain record produced by `toJSON()` and consumed by `fromJSON`.
Timestamps hold the millisecond value of the ISO-8601 strings (see module
comment); `completed` is copied verbatim, hence dynamically typed. -/
structure TaskRecord where
  id : String
  title : String
  description : Option String
  priority : String
  completed : JSVal
  createdAt : Nat
  updatedAt : Nat
deriving Repr

/-- `toJSON()`: all seven fields, timestamps rendered via `toISOString`. -/
def Task.toJSON (t : Task) : TaskRecord :=
  { id := t.id
    title := t.title
    description := some t.description
    priority := t.priority
    completed := t.completed
    createdAt := t.createdAt
    updatedAt := t.updatedAt }

/-- `Task.fromJSON(data)`: runs the constructor on the record's
title/description/priority (hence the same validation), then overwrites
`_id`, `_completed`, `_createdAt`, `_updatedAt` with the record's exact
values. The fresh id and clock readings consumed by the inner constructor
call are overwritten and hence irrelevant; they are still injected for
fidelity. -/
def Task.fromJSON (data : TaskRecord) (freshId : String) (now1 now2 : Nat) :
    Except ValidationError Task :=
  match Task.construct data.title data.description (some data.priority) freshId now1 now2 with
  | .error e => .error e
  | .ok t =>
    .ok { t with
          id := data.id
          completed := data.completed
          createdAt := data.createdAt
          updatedAt := data.updatedAt }

/-- Task states reachable through the public operations under a monotone
clock (each call's `new Date()` reading is at least the previous
`updatedAt`), including reconstruction from stored records that themselves
satisfy `createdAt ≤ updatedAt`. -/
inductive Task.Reachable : Task → Prop where
  | construct {title description priority id ca ua t} :
      Task.construct title description priority id ca ua = .ok t → ca ≤ ua →
      Task.Reachable t
  | markComplete {t now} : Task.Reachable t → t.updatedAt ≤ now →
      Task.Reachable (t.markComplete now)
  | markIncomplete {t now} : Task.Reachable t → t.updatedAt ≤ now →
      Task.Reachable (t.markIncomplete now)
  | updateTitle {t s now t2} : Task.Reachable t → t.updatedAt ≤ now →
      (t.updateTitle s now).2 = t2 → Task.Reachable t2
  | updateDescription {t d now} : Task.Reachable t → t.updatedAt ≤ now →
      Task.Reachable (t.updateDescription d now)
  | updatePriority {t p now t2} : Task.Reachable t → t.updatedAt ≤ now →
      (t.updatePriority p now).2 = t2 → Task.Reachable t2
  | fromJSON {data freshId now1 now2 t} :
      Task.fromJSON data freshId now1 now2 = .ok t → data.createdAt ≤ data.updatedAt →
      Task.Reachable t

end Models

/-! ### The storage adapter (src/src/utils/StorageManager.js)

`localStorage` is an association list in insertion order: `setItem`
updates in place or appends, `getItem` looks up, `removeItem` deletes,
`key(i)` enumerates (modelled by `List.map Prod.fst`), `length` is the
entry count. Substrate exceptions other than unavailability (e.g. quota)
have no counterpart in the total list model; the construction-time
availability probe outcome is injected. -/

abbrev Store := List (String × String)

def setItem : Store → String → String → Store
  | [], k, v => [(k, v)]
  | (k0, v0) :: rest, k, v =>
    if k0 = k then (k, v) :: rest else (k0, v0) :: setItem rest k v

def getItem : Store → String → Option String
  | [], _ => none
  | (k0, v0) :: rest, k => if k0 = k then some v0 else getItem rest k

def removeItem (st : Store) (k : String) : Store :=
  st.filter fun kv => kv.1 != k

structure StorageManager where
  storageKey : String
  isAvailable : Bool

/-- `new StorageManager(storageKey = 'taskManagementApp')`: stores the
namespace and probes the substrate once; the probe result (`true` iff the
test write/remove cycle did not throw) is environmental and injected. -/
def StorageManager.create (storageKey : String) (probeOk : Bool) : StorageManager :=
  ⟨storageKey, probeOk⟩

def StorageManager.fullKey (sm : StorageManager) (key : String) : String :=
  sm.storageKey ++ "_" ++ key

/-- `save(key, data)`: fail-soft `false` when unavailable, otherwise
stringify and write under the namespaced key. -/
def StorageManager.save (sm : StorageManager) (st : Store) (key : String) (data : JValue) :
    Bool × Store :=
  if !sm.isAvailable then (false, st)
  else (true, setItem st (sm.fullKey key) (jsonStringify data))

/-- `load(key, defaultValue = null)`: `defaultValue` when unavailable, when
the key is absent, or when the stored text fails to parse (the
`JSON.parse` throw is caught). -/
def StorageManager.load (sm : StorageManager) (st : Store) (key : String)
    (defaultValue : JValue) : JValue :=
  if !sm.isAvailable then defaultValue
  else
    match getItem st (sm.fullKey key) with
    | none => defaultValue
    | some txt =>
      match jsonParse txt with
      | some v => v
      | none => defaultValue

/-- `remove(key)`: `false` when unavailable, otherwise delete and report
success (`localStorage.removeItem` succeeds silently on absent keys). -/
def StorageManager.remove (sm : StorageManager) (st : Store) (key : String) : Bool × Store :=
  if !sm.isAvailable then (false, st)
  else (true, removeItem st (sm.fullKey key))

/-- Model of `String.prototype.startsWith`: character-prefix test.
(Defined over the character list so that it evaluates inside the kernel.) -/
def jsStartsWith (s p : String) : Bool := p.data.isPrefixOf s.data

/-- `clear()`: collect every enumerated key that starts with the namespace
and then delete the collected keys; `false` when unavailable. -/
def StorageManager.clear (sm : StorageManager) (st : Store) : Bool × Store :=
  if !sm.isAvailable then (false, st)
  else
    let keysToRemove := (st.map Prod.fst).filter fun k => jsStartsWith k sm.storageKey
    (true, keysToRemove.foldl removeItem st)

/-- The three result shapes of `getStorageInfo()`. -/
inductive StorageInfo where
  | unavailable
  | failed (error : String)
  | available (totalSize appSize itemCount : Nat)
deriving Repr, DecidableEq

/-- `getStorageInfo()`: `{available: false}` when unavailable, otherwise
aggregate sizes (string lengths of keys and values) over all entries and
over the namespaced entries, plus the entry count. -/
def StorageManager.getStorageInfo (sm : StorageManager) (st : Store) : StorageInfo :=
  if !sm.isAvailable then .unavailable
  else
    let acc := st.foldl (fun (a : Nat × Nat) kv =>
      let itemSize := kv.1.length + kv.2.length
      (a.1 + itemSize, if jsStartsWith kv.1 sm.storageKey then a.2 + itemSize else a.2)) (0, 0)
    .available acc.1 acc.2 st.length

/-! ### Helper lemmas about the store model -/

theorem getItem_setItem_self (st : Store) (k v : String) :
    getItem (setItem st k v) k = some v := by
  induction st with
  | nil => simp [setItem, getItem]
  | cons kv rest ih =>
    obtain ⟨k0, v0⟩ := kv
    by_cases hk : k0 = k
    · simp [setItem, getItem, hk]
    · simp [setItem, getItem, hk, ih]

theorem removeItem_of_absent (st : Store) (k : String) (h : getItem st k = none) :
    removeItem st k = st := by
  induction st with
  | nil => rfl
  | cons kv rest ih =>
    obtain ⟨k0, v0⟩ := kv
    by_cases hk : k0 = k
    · simp [getItem, hk] at h
    · simp only [getItem, hk, if_false, ite_false] at h
      simp only [removeItem, List.filter_cons]
      rw [show ((k0, v0).1 != k) = true by simp [hk]]
      simp only [if_true, ite_true]
      have := ih h
      rw [removeItem] at this
      rw [this]

theorem foldl_removeItem (keys : List String) (st : Store) :
    keys.foldl removeItem st = st.filter fun kv => !(keys.contains kv.1) := by
  induction keys generalizing st with
  | nil => simp
  | cons k ks ih =>
    simp only [List.foldl_cons, ih, removeItem, List.filter_filter]
    apply List.filter_congr
    intro kv _
    simp only [List.contains_cons, Bool.not_or, bne]
    exact Bool.and_comm _ _

theorem clear_eq_filter (sm : StorageManager) (st : Store) (h : sm.isAvailable = true) :
    sm.clear st = (true, st.filter fun kv => !(jsStartsWith kv.1 sm.storageKey)) := by
  unfold StorageManager.clear
  rw [h]
  simp only [Bool.not_true, if_false, ite_false, foldl_removeItem]
  refine congrArg _ (congrArg _ (List.filter_congr ?_))
  intro kv hkv
  congr 1
  by_cases hsw : jsStartsWith kv.1 sm.storageKey = true
  · rw [hsw]
    show List.elem kv.1 ((st.map Prod.fst).filter fun k => jsStartsWith k sm.storageKey) = true
    exact List.elem_iff.mpr (List.mem_filter.mpr ⟨List.mem_map.mpr ⟨kv, hkv, rfl⟩, hsw⟩)
  · rw [Bool.of_not_eq_true hsw]
    show List.elem kv.1 ((st.map Prod.fst).filter fun k => jsStartsWith k sm.storageKey) = false
    cases hc : List.elem kv.1 ((st.map Prod.fst).filter fun k => jsStartsWith k sm.storageKey) with
    | false => rfl
    | true =>
      have := List.mem_filter.mp (List.elem_iff.mp hc)
      exact absurd this.2 hsw

/-! ### Claim theorems: storage adapter -/

/-- C3: when the availability probe has recorded the substrate unavailable,
every operation fails soft without raising: `save` returns `false`, `load`
returns the supplied default, `remove` returns `false`, and
`getStorageInfo` returns the `{available: false}` shape. (All operations
are total functions in the model; no exception escapes.) -/
theorem storage_unavailable_fail_soft (sm : StorageManager) (st : Store) (key : String)
    (v defaultValue : JValue) (h : sm.isAvailable = false) :
    sm.save st key v = (false, st) ∧
    sm.load st key defaultValue = defaultValue ∧
    sm.remove st key = (false, st) ∧
    sm.getStorageInfo st = .unavailable := by
  refine ⟨?_, ?_, ?_, ?_⟩ <;>
    simp [StorageManager.save, StorageManager.load, StorageManager.remove,
      StorageManager.getStorageInfo, h]

/-- C3 witness: the spec's instance — unavailable adapter, `save("x", 1)`
false, `load("x", 42)` gives 42, `remove("x")` false, info unavailable. -/
theorem storage_unavailable_fail_soft_witness :
    (StorageManager.create "taskManagementApp" false).save [] "x" (.num 1) = (false, []) ∧
    (StorageManager.create "taskManagementApp" false).load [] "x" (.num 42) = .num 42 ∧
    (StorageManager.create "taskManagementApp" false).remove [] "x" = (false, []) ∧
    (StorageManager.create "taskManagementApp" false).getStorageInfo [] = .unavailable :=
  storage_unavailable_fail_soft (StorageManager.create "taskManagementApp" false)
    [] "x" (.num 1) (.num 42) rfl

/-- C4: with the substrate available, `save` then `load` of the same key
returns the saved value exactly (via the verified `JSON.stringify` /
`JSON.parse` round trip); `load` of an absent key returns the supplied
default; and `load` of a stored text that fails to parse returns the
default instead of throwing. -/
theorem save_load_roundtrip (sm : StorageManager) (st : Store) (key : String)
    (v d : JValue) (h : sm.isAvailable = true) :
    sm.load (sm.save st key v).2 key d = v ∧
    (getItem st (sm.fullKey key) = none → sm.load st key d = d) ∧
    (∀ txt, jsonParse txt = none →
      sm.load (setItem st (sm.fullKey key) txt) key d = d) := by
  refine ⟨?_, ?_, ?_⟩
  · simp [StorageManager.save, StorageManager.load, h, getItem_setItem_self,
      jsonParse_jsonStringify]
  · intro habs
    simp [StorageManager.load, h, habs]
  · intro txt hbad
    simp [StorageManager.load, h, getItem_setItem_self, hbad]

/-- C4 witness: the spec's instance — saving an array holding a serialized
task record under `"tasks"` and loading it back returns it deep-equal;
`load("missing", "D")` returns `"D"`; loading a corrupted stored text (a
lone opening brace) returns the default. -/
theorem save_load_roundtrip_witness :
    ((StorageManager.create "taskManagementApp" true).load
      ((StorageManager.create "taskManagementApp" true).save [] "tasks"
        (.arr [.obj [("id", .str "t1"), ("title", .str "Write docs"), ("completed", .bool false)]])).2
      "tasks" (.arr [])) =
      .arr [.obj [("id", .str "t1"), ("title", .str "Write docs"), ("completed", .bool false)]] ∧
    (StorageManager.create "taskManagementApp" true).load [] "missing" (.str "D") = .str "D" ∧
    (StorageManager.create "taskManagementApp" true).load
      (setItem [] ((StorageManager.create "taskManagementApp" true).fullKey "k") "\x7b")
      "k" (.str "D") = .str "D" := by
  have h := save_load_roundtrip (StorageManager.create "taskManagementApp" true) [] "tasks"
    (.arr [.obj [("id", .str "t1"), ("title", .str "Write docs"), ("completed", .bool false)]])
    (.arr []) rfl
  have h2 := save_load_roundtrip (StorageManager.create "taskManagementApp" true) [] "missing"
    (.null) (.str "D") rfl
  have h3 := save_load_roundtrip (StorageManager.create "taskManagementApp" true) [] "k"
    (.null) (.str "D") rfl
  exact ⟨h.1, h2.2.1 rfl, h3.2.2 "\x7b" rfl⟩

/-- C8: `clear()` enumerates the store's keys, deletes exactly those that
start with the namespace prefix (the resulting store is the original
filtered to the keys that do not start with the prefix), returns `true`
when available, and returns `false` leaving the store untouched when the
substrate is unavailable. -/
theorem clear_removes_exactly_namespaced (sm : StorageManager) (st : Store) :
    (sm.isAvailable = false → sm.clear st = (false, st)) ∧
    (sm.isAvailable = true →
      sm.clear st = (true, st.filter fun kv => !(jsStartsWith kv.1 sm.storageKey))) := by
  constructor
  · intro h
    simp [StorageManager.clear, h]
  · intro h
    exact clear_eq_filter sm st h

/-- C8 witness: the spec's instance — after saving under `"a"` and `"b"`,
`clear()` removes both namespaced keys but leaves a manually set
non-namespaced key untouched, and returns `true`. -/
theorem clear_removes_exactly_namespaced_witness :
    (StorageManager.create "taskManagementApp" true).clear
      [("taskManagementApp_a", "1"), ("taskManagementApp_b", "2"), ("other", "3")] =
      (true, [("other", "3")]) ∧
    (StorageManager.create "taskManagementApp" false).clear [("x", "1")] = (false, [("x", "1")]) := by
  have h := clear_removes_exactly_namespaced (StorageManager.create "taskManagementApp" true)
    [("taskManagementApp_a", "1"), ("taskManagementApp_b", "2"), ("other", "3")]
  have h2 := clear_removes_exactly_namespaced (StorageManager.create "taskManagementApp" false)
    [("x", "1")]
  refine ⟨?_, h2.1 rfl⟩
  rw [h.2 rfl]
  rfl

/-- C10: with the substrate available, `remove(key)` returns `true` whether
or not the effective key is present (`localStorage.removeItem` succeeds
silently on absent keys); in particular on a store that does not contain
the effective key it returns `true` and leaves the store unchanged, so a
`true` return does not imply an entry existed or was deleted. -/
theorem remove_true_regardless_of_presence (sm : StorageManager) (st : Store) (key : String)
    (h : sm.isAvailable = true) :
    (sm.remove st key).1 = true ∧
    (getItem st (sm.fullKey key) = none → sm.remove st key = (true, st)) := by
  constructor
  · simp [StorageManager.remove, h]
  · intro habs
    simp [StorageManager.remove, h, removeItem_of_absent st _ habs]

/-- C10 witness: removing the never-saved key `"x"` from a store holding
only an unrelated entry returns `true` with the store unchanged. -/
theorem remove_true_regardless_of_presence_witness :
    (StorageManager.create "taskManagementApp" true).remove [("other", "3")] "x" =
      (true, [("other", "3")]) :=
  (remove_true_regardless_of_presence (StorageManager.create "taskManagementApp" true)
    [("other", "3")] "x" rfl).2 rfl

/-! ### Helper lemmas about the Task model -/

theorem descOf_descOf (d : Option String) : descOf (some (descOf d)) = descOf d := by
  cases d with
  | none => rfl
  | some s =>
    by_cases hs : s = ""
    · subst hs; rfl
    · simp only [descOf, hs, if_false, ite_false]
      by_cases ht : jsTrim s = ""
      · rw [if_pos ht, ht]
      · rw [if_neg ht, jsTrim_idem]

theorem construct_fields {title : String} {d p : Option String} {id : String} {ca ua : Nat}
    {t : Models.Task} (h : Models.Task.construct title d p id ca ua = .ok t) :
    t = { id := id
          title := jsTrim title
          description := descOf d
          priority := (validatePriority (p.getD "medium")).toOption.getD (p.getD "medium")
          completed := .val (.bool false)
          createdAt := ca
          updatedAt := ua } ∧
    ¬(title = "" ∨ jsTrim title = "") ∧
    validPriorities.contains t.priority = true := by
  unfold Models.Task.construct at h
  by_cases hT : title = "" ∨ jsTrim title = ""
  · rw [if_pos hT] at h
    exact absurd h (by simp)
  · rw [if_neg hT] at h
    cases hv : validatePriority (p.getD "medium") with
    | error e => rw [hv] at h; exact absurd h (by simp)
    | ok p0 =>
      rw [hv] at h
      have hp0 : p0 = p.getD "medium" ∧ validPriorities.contains (p.getD "medium") = true := by
        unfold validatePriority at hv
        by_cases hc : validPriorities.contains (p.getD "medium") = true
        · rw [if_pos hc] at hv
          exact ⟨(Except.ok.inj hv).symm, hc⟩
        · rw [if_neg hc] at hv
          exact absurd hv (by simp)
      have ht := (Except.ok.inj h)
      refine ⟨?_, hT, ?_⟩
      · rw [← ht]
        simp [hv, Except.toOption, hp0.1]
      · rw [← ht]
        simp only []
        rw [hp0.1]
        exact hp0.2

theorem fromJSON_fields {data : Models.TaskRecord} {fid : String} {n1 n2 : Nat}
    {t : Models.Task} (h : Models.Task.fromJSON data fid n1 n2 = .ok t) :
    t.id = data.id ∧ t.completed = data.completed ∧
    t.createdAt = data.createdAt ∧ t.updatedAt = data.updatedAt := by
  unfold Models.Task.fromJSON at h
  cases hcon : Models.Task.construct data.title data.description (some data.priority) fid n1 n2 with
  | error e => rw [hcon] at h; exact absurd h (by simp)
  | ok t0 =>
    rw [hcon] at h
    have := Except.ok.inj h
    rw [← this]
    exact ⟨rfl, rfl, rfl, rfl⟩

theorem fromJSON_ok (r : Models.TaskRecord) (fid : String) (n1 n2 : Nat)
    (hT : ¬(r.title = "" ∨ jsTrim r.title = ""))
    (hp : validPriorities.contains r.priority = true) :
    Models.Task.fromJSON r fid n1 n2 = .ok
      { id := r.id
        title := jsTrim r.title
        description := descOf r.description
        priority := r.priority
        completed := r.completed
        createdAt := r.createdAt
        updatedAt := r.updatedAt } := by
  unfold Models.Task.fromJSON Models.Task.construct
  rw [if_neg hT]
  have hp2 : r.priority ∈ validPriorities := by simpa using hp
  rw [show validatePriority ((some r.priority).getD "medium") = .ok r.priority from by
    simp [validatePriority, hp2]]

/-! ### Claim theorems: the Task entity -/

/-- C1: a Task built by the constructor from valid inputs round-trips
exactly through `toJSON` followed by `fromJSON`: the reconstructed Task
equals the original in every field (id, title, description, priority,
completed, createdAt, updatedAt). -/
theorem serialize_deserialize_roundtrip (title : String) (d p : Option String)
    (id fid : String) (ca ua n1 n2 : Nat) (t : Models.Task)
    (h : Models.Task.construct title d p id ca ua = .ok t) :
    Models.Task.fromJSON t.toJSON fid n1 n2 = .ok t := by
  unfold Models.Task.construct at h
  by_cases hT : title = "" ∨ jsTrim title = ""
  · rw [if_pos hT] at h
    exact absurd h (by simp)
  · rw [if_neg hT] at h
    push_neg at hT
    cases hv : validatePriority (p.getD "medium") with
    | error e => rw [hv] at h; exact absurd h (by simp)
    | ok p0 =>
      rw [hv] at h
      have hinj : p.getD "medium" = p0 := by
        unfold validatePriority at hv
        by_cases hc : validPriorities.contains (p.getD "medium") = true
        · rw [if_pos hc] at hv
          exact Except.ok.inj hv
        · rw [if_neg hc] at hv
          exact absurd hv (by simp)
      have hp0 : validPriorities.contains p0 = true := by
        unfold validatePriority at hv
        by_cases hc : validPriorities.contains (p.getD "medium") = true
        · rw [hinj] at hc
          exact hc
        · rw [if_neg hc] at hv
          exact absurd hv (by simp)
      have ht : { id := id
                  title := jsTrim title
                  description := descOf d
                  priority := p0
                  completed := JSVal.val (JValue.bool false)
                  createdAt := ca
                  updatedAt := ua : Models.Task } = t := Except.ok.inj h
      rw [← ht]
      rw [fromJSON_ok _ fid n1 n2
        (show ¬(jsTrim title = "" ∨ jsTrim (jsTrim title) = "") from by
          rw [jsTrim_idem]
          push_neg
          exact ⟨hT.2, hT.2⟩)
        hp0]
      simp only [Models.Task.toJSON, jsTrim_idem, descOf_descOf]

/-- C1 witness: constructing `("Write docs", "soon", "high")` and
round-tripping the serialized record reproduces the task exactly. -/
theorem serialize_deserialize_roundtrip_witness :
    Models.Task.fromJSON
      (Models.Task.toJSON
        { id := "task_1_abc"
          title := "Write docs"
          description := "soon"
          priority := "high"
          completed := .val (.bool false)
          createdAt := 100
          updatedAt := 100 }) "task_2_def" 200 201 =
      .ok { id := "task_1_abc"
            title := "Write docs"
            description := "soon"
            priority := "high"
            completed := .val (.bool false)
            createdAt := 100
            updatedAt := 100 } :=
  serialize_deserialize_roundtrip "Write docs" (some "soon") (some "high")
    "task_1_abc" "task_2_def" 100 100 200 201 _ rfl

/-- C2: constructing with an empty or whitespace-only title throws the
title validation error; constructing with a priority outside
`{low, medium, high}` throws the priority validation error whose message
names the invalid value and lists the allowed set (the third conjunct
exhibits the message's shape); `fromJSON` runs the very same constructor
validation, so records with a corrupted title or priority fail with the
identical errors. -/
theorem construct_validation_errors :
    (∀ (title : String) (d p : Option String) (id : String) (ca ua : Nat),
      (title = "" ∨ jsTrim title = "") →
      Models.Task.construct title d p id ca ua = .error ⟨"Task title is required"⟩) ∧
    (∀ (title : String) (d : Option String) (p id : String) (ca ua : Nat),
      ¬(title = "" ∨ jsTrim title = "") → validPriorities.contains p = false →
      Models.Task.construct title d (some p) id ca ua = .error ⟨invalidPriorityMsg p⟩) ∧
    (∀ p : String,
      invalidPriorityMsg p = "Invalid priority: " ++ p ++ ". Must be one of: low, medium, high") ∧
    (∀ (r : Models.TaskRecord) (fid : String) (n1 n2 : Nat),
      (r.title = "" ∨ jsTrim r.title = "") →
      Models.Task.fromJSON r fid n1 n2 = .error ⟨"Task title is required"⟩) ∧
    (∀ (r : Models.TaskRecord) (fid : String) (n1 n2 : Nat),
      ¬(r.title = "" ∨ jsTrim r.title = "") → validPriorities.contains r.priority = false →
      Models.Task.fromJSON r fid n1 n2 = .error ⟨invalidPriorityMsg r.priority⟩) := by
  have hmsg : ∀ p : String,
      invalidPriorityMsg p = "Invalid priority: " ++ p ++ ". Must be one of: low, medium, high" := by
    intro p
    unfold invalidPriorityMsg
    rw [String.append_assoc]
    rfl
  have hcon1 : ∀ (title : String) (d p : Option String) (id : String) (ca ua : Nat),
      (title = "" ∨ jsTrim title = "") →
      Models.Task.construct title d p id ca ua = .error ⟨"Task title is required"⟩ := by
    intro title d p id ca ua hbad
    unfold Models.Task.construct
    rw [if_pos hbad]
  have hcon2 : ∀ (title : String) (d : Option String) (p id : String) (ca ua : Nat),
      ¬(title = "" ∨ jsTrim title = "") → validPriorities.contains p = false →
      Models.Task.construct title d (some p) id ca ua = .error ⟨invalidPriorityMsg p⟩ := by
    intro title d p id ca ua hok hbad
    unfold Models.Task.construct
    rw [if_neg hok]
    have hbad2 : p ∉ validPriorities := by simpa using hbad
    rw [show validatePriority ((some p).getD "medium") = .error ⟨invalidPriorityMsg p⟩ from by
      simp [validatePriority, hbad2]]
  refine ⟨hcon1, hcon2, hmsg, ?_, ?_⟩
  · intro r fid n1 n2 hbad
    unfold Models.Task.fromJSON
    rw [hcon1 r.title r.description (some r.priority) fid n1 n2 hbad]
  · intro r fid n1 n2 hok hbad
    unfold Models.Task.fromJSON
    rw [hcon2 r.title r.description r.priority fid n1 n2 hok hbad]

/-- C2 witness: the spec's instances — whitespace-only title; priority
`"urgent"` rejected with the message naming it and the enum; the same two
corruptions rejected identically by `fromJSON`. -/
theorem construct_validation_errors_witness :
    Models.Task.construct "   " none none "i" 0 0 = .error ⟨"Task title is required"⟩ ∧
    Models.Task.construct "Buy milk" none (some "urgent") "i" 0 0 =
      .error ⟨"Invalid priority: urgent. Must be one of: low, medium, high"⟩ ∧
    Models.Task.fromJSON ⟨"t1", " ", some "", "low", .undef, 0, 0⟩ "f" 0 0 =
      .error ⟨"Task title is required"⟩ ∧
    Models.Task.fromJSON ⟨"t1", "Title", some "", "urgent", .undef, 0, 0⟩ "f" 0 0 =
      .error ⟨"Invalid priority: urgent. Must be one of: low, medium, high"⟩ := by
  have h := construct_validation_errors
  refine ⟨h.1 "   " none none "i" 0 0 (Or.inr (by decide)), ?_, ?_, ?_⟩
  · rw [h.2.1 "Buy milk" none "urgent" "i" 0 0 (by decide) (by decide)]
    rfl
  · exact h.2.2.2.1 ⟨"t1", " ", some "", "low", .undef, 0, 0⟩ "f" 0 0 (Or.inr (by decide))
  · rw [h.2.2.2.2 ⟨"t1", "Title", some "", "urgent", .undef, 0, 0⟩ "f" 0 0 (by decide) (by decide)]
    rfl

/-- C6: `updateTitle` with an empty or whitespace-only argument and
`updatePriority` with a value outside the enum return the validation error
paired with the task state exactly as it was (no partial mutation, same
title/priority, same `updatedAt`); on valid input the corresponding field
is set and `updatedAt` is refreshed to the current clock reading. -/
theorem update_validation_error_no_mutation (t : Models.Task) (s p : String) (now : Nat) :
    ((s = "" ∨ jsTrim s = "") →
      t.updateTitle s now = (some ⟨"Task title cannot be empty"⟩, t)) ∧
    (¬(s = "" ∨ jsTrim s = "") →
      t.updateTitle s now = (none, { t with title := jsTrim s, updatedAt := now })) ∧
    (validPriorities.contains p = false →
      t.updatePriority p now = (some ⟨invalidPriorityMsg p⟩, t)) ∧
    (validPriorities.contains p = true →
      t.updatePriority p now = (none, { t with priority := p, updatedAt := now })) := by
  refine ⟨?_, ?_, ?_, ?_⟩
  · intro h
    simp [Models.Task.updateTitle, h]
  · intro h
    simp [Models.Task.updateTitle, h]
  · intro h
    have h2 : p ∉ validPriorities := by simpa using h
    simp [Models.Task.updatePriority, validatePriority, h2]
  · intro h
    have h2 : p ∈ validPriorities := by simpa using h
    simp [Models.Task.updatePriority, validatePriority, h2]

/-- C6 witness: on a concrete task, `updateTitle("   ")` and
`updatePriority("urgent")` fail leaving the task (title, priority and
`updatedAt` included) untouched. -/
theorem update_validation_error_no_mutation_witness :
    Models.Task.updateTitle
      { id := "i", title := "Keep", description := "", priority := "low",
        completed := .val (.bool false), createdAt := 1, updatedAt := 1 } "   " 9 =
      (some ⟨"Task title cannot be empty"⟩,
        { id := "i", title := "Keep", description := "", priority := "low",
          completed := .val (.bool false), createdAt := 1, updatedAt := 1 }) ∧
    Models.Task.updatePriority
      { id := "i", title := "Keep", description := "", priority := "low",
        completed := .val (.bool false), createdAt := 1, updatedAt := 1 } "urgent" 9 =
      (some ⟨invalidPriorityMsg "urgent"⟩,
        { id := "i", title := "Keep", description := "", priority := "low",
          completed := .val (.bool false), createdAt := 1, updatedAt := 1 }) := by
  have h := update_validation_error_no_mutation
    { id := "i", title := "Keep", description := "", priority := "low",
      completed := .val (.bool false), createdAt := 1, updatedAt := 1 } "   " "urgent" 9
  exact ⟨h.1 (Or.inr (by decide)), h.2.2.1 (by decide)⟩

/-- C7: `markComplete` / `markIncomplete` set the completed flag, refresh
`updatedAt` to the clock reading, and are total (the source has no throw
path); they are idempotent: a second call yields exactly the state a
single call at the later clock reading yields, and with an unchanged clock
the state is literally unchanged. -/
theorem mark_complete_incomplete_idempotent (t : Models.Task) (n n1 n2 : Nat) :
    (t.markComplete n).completed = .val (.bool true) ∧
    (t.markComplete n).updatedAt = n ∧
    (t.markIncomplete n).completed = .val (.bool false) ∧
    (t.markIncomplete n).updatedAt = n ∧
    (t.markComplete n1).markComplete n2 = t.markComplete n2 ∧
    (t.markIncomplete n1).markIncomplete n2 = t.markIncomplete n2 :=
  ⟨rfl, rfl, rfl, rfl, rfl, rfl⟩

/-- C9: for a record with a valid title and priority, `fromJSON` copies
`record.completed` into the Task verbatim and without validation: any
value including non-booleans and `undefined` lands in the `completed`
field, so deserialization alone does not establish `completed : boolean`. -/
theorem fromJSON_copies_completed_verbatim (r : Models.TaskRecord) (fid : String)
    (n1 n2 : Nat) (hT : ¬(r.title = "" ∨ jsTrim r.title = ""))
    (hp : validPriorities.contains r.priority = true) :
    ∃ t, Models.Task.fromJSON r fid n1 n2 = .ok t ∧ t.completed = r.completed :=
  ⟨_, fromJSON_ok r fid n1 n2 hT hp, rfl⟩

/-- C9 witness: a record carrying the string `"yes"` in `completed` is
deserialized into a Task whose `completed` is that non-boolean string. -/
theorem fromJSON_copies_completed_verbatim_witness :
    ∃ t, Models.Task.fromJSON ⟨"t1", "Title", some "", "low", .val (.str "yes"), 5, 7⟩ "f" 0 0 =
      .ok t ∧ t.completed = .val (.str "yes") :=
  fromJSON_copies_completed_verbatim ⟨"t1", "Title", some "", "low", .val (.str "yes"), 5, 7⟩
    "f" 0 0 (by decide) (by decide)

/-- C5 counterexample: `fromJSON` copies both timestamps verbatim from the
record, so a stored record with `createdAt = 10` and `updatedAt = 3` is
accepted (title and priority are valid) and yields a Task with
`updatedAt < createdAt`, refuting the claim for Tasks reconstructed from
arbitrary stored records. -/
theorem fromJSON_timestamp_counterexample :
    ∃ t, Models.Task.fromJSON
        ⟨"t1", "Title", some "", "low", .val (.bool false), 10, 3⟩ "f" 0 0 = .ok t ∧
      t.updatedAt < t.createdAt := by
  refine ⟨_, rfl, ?_⟩
  decide

/-- C5 amended: for every Task reachable through the public operations
under a monotone clock — construction, the mutators, and `fromJSON`
restricted to records that themselves satisfy `createdAt ≤ updatedAt` —
`updatedAt ≥ createdAt` holds. (`fromJSON` trusts the record's timestamps,
so the invariant extends to deserialized Tasks only under that
precondition.) -/
theorem reachable_updatedAt_ge_createdAt (t : Models.Task) (h : Models.Task.Reachable t) :
    t.createdAt ≤ t.updatedAt := by
  induction h with
  | construct hc hle =>
    obtain ⟨ht, -, -⟩ := construct_fields hc
    rw [ht]
    exact hle
  | markComplete h hle ih =>
    simp only [Models.Task.markComplete]
    omega
  | markIncomplete h hle ih =>
    simp only [Models.Task.markIncomplete]
    omega
  | updateTitle h hle heq ih =>
    rename_i t0 s now t2
    unfold Models.Task.updateTitle at heq
    by_cases hbad : s = "" ∨ jsTrim s = ""
    · rw [if_pos hbad] at heq
      simp only [] at heq
      rw [← heq]
      exact ih
    · rw [if_neg hbad] at heq
      simp only [] at heq
      rw [← heq]
      simp only []
      omega
  | updateDescription h hle ih =>
    simp only [Models.Task.updateDescription]
    omega
  | updatePriority h hle heq ih =>
    rename_i t0 p now t2
    unfold Models.Task.updatePriority at heq
    cases hv : validatePriority p with
    | error e =>
      rw [hv] at heq
      simp only [] at heq
      rw [← heq]
      exact ih
    | ok q =>
      rw [hv] at heq
      simp only [] at heq
      rw [← heq]
      simp only []
      omega
  | fromJSON hf hle =>
    obtain ⟨-, -, hca, hua⟩ := fromJSON_fields hf
    rw [hca, hua]
    exact hle

/-- C5 amended witness: a concretely constructed task (clock readings 3
then 5) satisfies the invariant via the reachability theorem. -/
theorem reachable_updatedAt_ge_createdAt_witness :
    ({ id := "i", title := "T", description := "", priority := "medium",
       completed := .val (.bool false), createdAt := 3, updatedAt := 5 } : Models.Task).createdAt ≤
    ({ id := "i", title := "T", description := "", priority := "medium",
       completed := .val (.bool false), createdAt := 3, updatedAt := 5 } : Models.Task).updatedAt :=
  reachable_updatedAt_ge_createdAt _
    (Models.Task.Reachable.construct
      (show Models.Task.construct "T" none none "i" 3 5 = .ok _ from rfl) (by omega))
